import Mathlib

/-
Verification of the core of the `no-loss-of-precision` lint rule
(src/tester/eslint/lib/rules/no-loss-of-precision.js).

JavaScript strings are modelled as `List Char`.  Each helper of the source
file is translated one-to-one; the runtime primitives the source leans on
(`Number.prototype.toString(radix)` and `Number.prototype.toPrecision`) are
modelled from the design document, which describes them as external
collaborators an implementation must supply.
-/

/-- Decimal digit test on a character, by code point (48–57). -/
def isDigitB (c : Char) : Bool := 48 ≤ c.toNat && c.toNat ≤ 57

/-- Octal digit test on a character, by code point (48–55). -/
def isOctDigitB (c : Char) : Bool := 48 ≤ c.toNat && c.toNat ≤ 55

/-- Binary digit test on a character. -/
def isBinDigitB (c : Char) : Bool := c == '0' || c == '1'

/-- Hexadecimal digit test on a character (either case). -/
def isHexDigitB (c : Char) : Bool :=
  isDigitB c || (65 ≤ c.toNat && c.toNat ≤ 70) || (97 ≤ c.toNat && c.toNat ≤ 102)

/-- The character for the digit value `d` (uppercase letters for 10–15). -/
def hexDigitChar (d : ℕ) : Char :=
  if d < 10 then Char.ofNat (48 + d) else Char.ofNat (55 + d)

/-- Fuel-driven digit expansion of `n` in base `base`, most significant digit
first; empty for `n = 0`. -/
def toRadixAux (base : ℕ) : ℕ → ℕ → List Char
  | 0, _ => []
  | fuel + 1, n =>
    if n = 0 then [] else toRadixAux base fuel (n / base) ++ [hexDigitChar (n % base)]

/-- Modelled from the spec: the unsigned-integer rendering of `n` in base
`base` with uppercase digits that the runtime's `toString(radix)` supplies;
zero renders as the single digit "0". -/
def natToRadix (base n : ℕ) : List Char :=
  if n = 0 then ['0'] else toRadixAux base (n + 1) n

/-- Numeric value of a decimal digit string (most significant digit first). -/
def digitsVal (l : List Char) : ℕ := l.foldl (fun a c => a * 10 + (c.toNat - 48)) 0

/-- Modelled from the spec: JavaScript `parseInt(s, 10)` on the exponent
substrings the normalizer feeds it — an optional sign followed by a run of
decimal digits (the NaN result on digit-free input is outside the modelled
inputs and rendered as 0). -/
def jsParseInt (l : List Char) : Int :=
  match l with
  | [] => 0
  | x :: rest =>
    if x = '-' then -(digitsVal (rest.takeWhile isDigitB) : Int)
    else if x = '+' then (digitsVal (rest.takeWhile isDigitB) : Int)
    else (digitsVal ((x :: rest).takeWhile isDigitB) : Int)

/-- Modelled from the spec: the template-literal rendering `${m}` of the
(small, integral) magnitude values the normalizer produces. -/
def jsIntToString (m : Int) : List Char :=
  if m < 0 then '-' :: natToRadix 10 (-m).toNat else natToRadix 10 m.toNat

/-- JavaScript `String.prototype.split` with a single-character separator. -/
def splitOnChar (sep : Char) : List Char → List (List Char)
  | [] => [[]]
  | c :: cs =>
    if c = sep then [] :: splitOnChar sep cs
    else
      match splitOnChar sep cs with
      | [] => [[c]]
      | h :: t => (c :: h) :: t

/-- JavaScript `String.prototype.replace` with a one-character pattern:
replaces only the first occurrence. -/
def jsReplaceFirst : List Char → Char → List Char → List Char
  | [], _, _ => []
  | x :: xs, c, r => if x = c then r ++ xs else x :: jsReplaceFirst xs c r

/-- JavaScript `String.prototype.toUpperCase` on the ASCII text involved. -/
def jsToUpper (l : List Char) : List Char := l.map Char.toUpper

/-- JavaScript `String.prototype.startsWith`. -/
def jsStartsWith (l p : List Char) : Bool := decide (p <+: l)

/-- JavaScript `String.prototype.endsWith`. -/
def jsEndsWith (l s : List Char) : Bool := decide (s <:+ l)

/-- JavaScript `String.prototype.indexOf` with a one-character pattern. -/
def jsIndexOf (l : List Char) (c : Char) : Int :=
  match l.findIdx? (· == c) with
  | some i => (i : Int)
  | none => -1

/-- Source function getRaw: the literal's source text with `_` numeric separators removed. -/
def getRaw (raw : List Char) : List Char := raw.filter (· != '_')

/-- Helper of the radix classifier: no binary/octal/hex prefix on the raw text and no legacy
(prefixless) octal shape `^0[0-7]+$`. -/
def legacyOctalTest : List Char → Bool
  | '0' :: d :: ds => (d :: ds).all isOctDigitB
  | _ => false

/-- Source function isBaseTen. -/
def isBaseTen (raw : List Char) : Bool :=
  ([['0', 'x'], ['0', 'X'], ['0', 'b'], ['0', 'B'], ['0', 'o'], ['0', 'O']].all
      fun p => !jsStartsWith raw p) &&
    !legacyOctalTest raw

/-- Modelled from the spec: `Number.prototype.toString(radix)` restricted to
the non-negative integral values the non-decimal comparator receives
(`v.den = 1`); the rendering is the unsigned digit string in the radix. -/
def jsToStringRadix (v : ℚ) (base : ℕ) : List Char := natToRadix base v.num.toNat

/-- Source function notBaseTenLosesPrecision: suffix-compare the uppercased
separator-free raw text against the decoded value rendered in the radix. -/
def notBaseTenLosesPrecision (raw : List Char) (value : ℚ) : Bool :=
  let rawString := jsToUpper (getRaw raw)
  let base : ℕ :=
    if jsStartsWith rawString ['0', 'B'] then 2
    else if jsStartsWith rawString ['0', 'X'] then 16
    else 8
  !jsEndsWith rawString (jsToUpper (jsToStringRadix value base))

/-- Source function addDecimalPointToNumber: inserts a decimal point at
index 1.  On the empty string, JavaScript's `s[0]` is `undefined` and the
template literal renders it as the text "undefined". -/
def addDecimalPointToNumber (l : List Char) : List Char :=
  match l with
  | [] => "undefined.".toList
  | c :: cs => c :: '.' :: cs

/-- Source function removeLeadingZeros: drops leading `'0'` characters,
returning the input unchanged when every character is `'0'`. -/
def removeLeadingZeros (l : List Char) : List Char :=
  match l.dropWhile (· == '0') with
  | [] => l
  | r => r

/-- Source function removeTrailingZeros: drops trailing `'0'` characters,
returning the input unchanged when every character is `'0'`. -/
def removeTrailingZeros (l : List Char) : List Char :=
  (removeLeadingZeros l.reverse).reverse

/-- The `{ magnitude, coefficient }` objects the two normalizers build. -/
structure NormalizedNumber where
  magnitude : Int
  coefficient : List Char
  deriving Repr, DecidableEq

/-- Source function normalizeInteger. -/
def normalizeInteger (stringInteger : List Char) : NormalizedNumber :=
  let significantDigits := removeTrailingZeros (removeLeadingZeros stringInteger)
  { magnitude :=
      if jsStartsWith stringInteger ['0'] then (stringInteger.length : Int) - 2
      else (stringInteger.length : Int) - 1,
    coefficient := addDecimalPointToNumber significantDigits }

/-- Source function normalizeFloat. -/
def normalizeFloat (stringFloat : List Char) : NormalizedNumber :=
  let trimmedFloat := removeLeadingZeros stringFloat
  if jsStartsWith trimmedFloat ['.'] then
    let decimalDigits := trimmedFloat.drop 1
    let significantDigits := removeLeadingZeros decimalDigits
    { magnitude := (significantDigits.length : Int) - decimalDigits.length - 1,
      coefficient := addDecimalPointToNumber significantDigits }
  else
    { magnitude := jsIndexOf trimmedFloat '.' - 1,
      coefficient := addDecimalPointToNumber (jsReplaceFirst trimmedFloat '.' []) }

/-- Source function convertNumberToScientificNotation. -/
def convertNumberToScientificNotation (stringNumber : List Char) : List Char :=
  let splitNumber := splitOnChar 'e' (jsReplaceFirst stringNumber 'E' ['e'])
  let originalCoefficient := splitNumber.headD []
  let normalizedNumber :=
    if stringNumber.contains '.' then normalizeFloat originalCoefficient
    else normalizeInteger originalCoefficient
  let magnitude :=
    if 1 < splitNumber.length then
      jsParseInt (splitNumber.getD 1 []) + normalizedNumber.magnitude
    else normalizedNumber.magnitude
  normalizedNumber.coefficient ++ 'e' :: jsIntToString magnitude

/-- The digit count (decimal point excluded) of the normalized coefficient of
the separator-free raw text — `requestedPrecision` in the source. -/
def requestedPrecisionOf (raw : List Char) : ℕ :=
  (jsReplaceFirst ((splitOnChar 'e' (convertNumberToScientificNotation (getRaw raw))).headD [])
      '.' []).length

/-- Fixed/exponential rendering of a digit string `digits` for decimal
exponent `e` and precision `p`, following the ECMAScript `toPrecision`
layout rules. -/
def renderPrec (digits : List Char) (e : Int) (p : ℕ) : List Char :=
  if e < -6 ∨ (p : Int) ≤ e then
    (match digits with
      | [] => []
      | d :: rest => d :: if rest = [] then [] else '.' :: rest) ++
      'e' :: (if 0 ≤ e then '+' :: natToRadix 10 e.toNat else '-' :: natToRadix 10 (-e).toNat)
  else if e = (p : Int) - 1 then digits
  else if 0 ≤ e then digits.take (e.toNat + 1) ++ '.' :: digits.drop (e.toNat + 1)
  else '0' :: '.' :: (List.replicate ((-e).toNat - 1) '0' ++ digits)

/-- Rounded digit expansion of a positive rational to `p` significant digits:
the decimal exponent `e` with `10^e ≤ x < 10^(e+1)` and the nearest integer
`n` to `x·10^(p-1-e)` (ties away from zero), bumped when rounding overflows
to `10^p`. -/
def toPrecisionPos (x : ℚ) (p : ℕ) : List Char :=
  let a := x.num.toNat
  let b := x.den
  let da := (natToRadix 10 a).length
  let db := (natToRadix 10 b).length
  let e : Int := if b * 10 ^ da ≤ a * 10 ^ db then (da : Int) - db else (da : Int) - db - 1
  let m : Int := (p : Int) - 1 - e
  let n : ℕ :=
    if 0 ≤ m then (2 * a * 10 ^ m.toNat + b) / (2 * b)
    else (2 * a + b * 10 ^ (-m).toNat) / (2 * b * 10 ^ (-m).toNat)
  let ne : ℕ × Int := if n = 10 ^ p then (10 ^ (p - 1), e + 1) else (n, e)
  renderPrec (natToRadix 10 ne.1) ne.2 p

/-- Modelled from the spec: `Number.prototype.toPrecision` on the non-negative
decoded values the comparator passes it; `none` models the RangeError thrown
outside the precision range 1..100. -/
def toPrecisionChecked (x : ℚ) (p : ℕ) : Option (List Char) :=
  if p < 1 ∨ 100 < p then none
  else some (if x = 0 then renderPrec (List.replicate p '0') 0 p else toPrecisionPos x p)

/-- Source function baseTenLosesPrecision; the `none` outcome models an
uncaught runtime exception. -/
def baseTenLosesPrecision (raw : List Char) (value : ℚ) : Option Bool :=
  let normalizedRawNumber := convertNumberToScientificNotation (getRaw raw)
  let requestedPrecision := requestedPrecisionOf raw
  if 100 < requestedPrecision then some true
  else
    match toPrecisionChecked value requestedPrecision with
    | none => none
    | some storedNumber =>
      some (decide (normalizedRawNumber ≠ convertNumberToScientificNotation storedNumber))

/-- Source function losesPrecision: dispatch on the radix classifier. -/
def losesPrecision (raw : List Char) (value : ℚ) : Option Bool :=
  if isBaseTen raw then baseTenLosesPrecision raw value
  else some (notBaseTenLosesPrecision raw value)

/-- A numeric `Literal` node: raw source text plus decoded value, with NaN
tracked by a flag since the value is modelled as an exact rational. -/
structure LiteralNode where
  raw : List Char
  value : ℚ
  valueIsNaN : Bool

/-- The rule's `Literal` visitor: reports iff the decoded value is truthy
(non-zero, non-NaN) and the core predicate holds; an exception (`none`)
propagates, so nothing is reported in that case either. -/
def literalReports (node : LiteralNode) : Bool :=
  if node.value == 0 || node.valueIsNaN then false
  else (losesPrecision node.raw node.value).getD false

/-
Claim-side definitions: predicates and functions that state, in the design
document's own terms, what a claim asserts, to be compared with the source
embedding above.
-/

/-- Claim-side syntax of a non-decimal numeric literal: a `0b`/`0o`/`0x`
prefix (either case) followed by digits of that radix possibly interspersed
with `_` separators, or a legacy prefixless octal `0[0-7]+`. -/
def NonDecimalLit (raw : List Char) : Bool :=
  match raw with
  | c0 :: p :: ds =>
    c0 == '0' &&
      (if p == 'b' || p == 'B' then
          ds.any isBinDigitB && ds.all fun c => isBinDigitB c || c == '_'
        else if p == 'o' || p == 'O' then
          ds.any isOctDigitB && ds.all fun c => isOctDigitB c || c == '_'
        else if p == 'x' || p == 'X' then
          ds.any isHexDigitB && ds.all fun c => isHexDigitB c || c == '_'
        else (p :: ds).all isOctDigitB)
  | _ => false

/-- Claim-side radix of a non-decimal literal, read off its prefix (8 for
legacy octal). -/
def specRadixOf (raw : List Char) : ℕ :=
  match raw with
  | '0' :: p :: _ =>
    if p == 'b' || p == 'B' then 2
    else if p == 'x' || p == 'X' then 16
    else 8
  | _ => 8

/-- Claim-side digit text of a non-decimal literal: separator-stripped and
uppercased, with the two-character radix prefix removed (legacy octal has no
prefix to remove). -/
def specRawDigits (raw : List Char) : List Char :=
  match raw with
  | '0' :: p :: ds =>
    if p == 'b' || p == 'B' || p == 'o' || p == 'O' || p == 'x' || p == 'X' then
      jsToUpper (getRaw ds)
    else jsToUpper (getRaw raw)
  | _ => jsToUpper (getRaw raw)

/-- Claim-side coefficient pattern: a single digit, then `'.'`, then zero or
more digits. -/
def coeffShape (l : List Char) : Bool :=
  match l with
  | c :: '.' :: rest => isDigitB c && rest.all isDigitB
  | _ => false

/-- Claim-side semantics: the rational value a decimal literal text denotes —
integer digits `I`, fraction digits `F` of length `k` and decimal exponent
`x` denote `(I·10^k + F) / 10^k · 10^x`, built here directly as a normalized
rational. -/
def denotedValue (l : List Char) : ℚ :=
  let parts := splitOnChar 'e' (jsReplaceFirst l 'E' ['e'])
  let mant := parts.headD []
  let expo : Int := if 1 < parts.length then jsParseInt (parts.getD 1 []) else 0
  let frac := (mant.dropWhile (· != '.')).drop 1
  let scaled : Int := (digitsVal (mant.takeWhile (· != '.')) * 10 ^ frac.length + digitsVal frac : ℕ)
  if 0 ≤ expo then mkRat (scaled * 10 ^ expo.toNat) (10 ^ frac.length)
  else mkRat scaled (10 ^ frac.length * 10 ^ (-expo).toNat)

/-- Claim-side magnitude formula of claim C5, read literally: the length of
the mantissa after stripping leading zeros, minus one, with one extra
position subtracted when the first character of the original mantissa is
`'0'`. -/
def claimFiveMagnitude (l : List Char) : Int :=
  ((removeLeadingZeros l).length : Int) - 1 - (if jsStartsWith l ['0'] then 1 else 0)

/-
Claim theorems.
-/

/-- C1, counterexample: the zero-valued decimal literal "0e5" makes the core
predicate `losesPrecision` return true (its normalized form `0.e4` differs
from the re-rendered decoded value's normalized form `0.e-1`), refuting the
claim that all three zero forms return false. -/
theorem claim1_counterexample : losesPrecision "0e5".toList 0 = some true := by decide

/-- C1, amended: `losesPrecision` returns false for the zero forms "0" and
"0.0" but true for "0e5"; zero forms escape diagnosis only through the rule's
truthiness guard on the decoded value, not through the core predicate. -/
theorem claim1_amended :
    losesPrecision "0".toList 0 = some false ∧
      losesPrecision "0.0".toList 0 = some false ∧
      losesPrecision "0e5".toList 0 = some true :=
  ⟨by decide, by decide, by decide⟩

/-- C2, counterexample: "1" and "1.0" denote the same numeric value but
normalize to different strings (`1.e0` vs `1.0e0`), refuting representation
invariance over all equal-valued surface forms. -/
theorem claim2_counterexample :
    denotedValue "1".toList = denotedValue "1.0".toList ∧
      convertNumberToScientificNotation "1".toList ≠
        convertNumberToScientificNotation "1.0".toList :=
  ⟨by decide, by decide⟩

/-- C2, amended: the three example literals "123.45", "1.2345e2" and
"12345e-2" denote the same value and all normalize to the identical string
`1.2345e2`; invariance does not extend to every pair of equal-valued
literals (trailing zeros and a bare integer form normalize differently). -/
theorem claim2_amended :
    (denotedValue "123.45".toList = denotedValue "1.2345e2".toList ∧
        denotedValue "123.45".toList = denotedValue "12345e-2".toList) ∧
      convertNumberToScientificNotation "123.45".toList = "1.2345e2".toList ∧
        convertNumberToScientificNotation "1.2345e2".toList = "1.2345e2".toList ∧
        convertNumberToScientificNotation "12345e-2".toList = "1.2345e2".toList :=
  ⟨⟨by decide, by decide⟩, by decide, by decide, by decide⟩

/-- C3: the literal text "9007199254740993" (2^53+1, which decodes to the
double 9007199254740992) is flagged, while "9007199254740992" is not. -/
theorem claim3_boundary :
    losesPrecision "9007199254740993".toList ((9007199254740992 : ℚ)) = some true ∧
      losesPrecision "9007199254740992".toList ((9007199254740992 : ℚ)) = some false :=
  ⟨by decide, by decide⟩

/-- C5, counterexample: on the decimal integer mantissa "0128" the code's
magnitude is 2, which equals the stripped length 3 minus one with NO extra
adjustment even though the first character is '0' (the claimed formula gives
1); and on "00128" the code's magnitude is 3 while stripped length minus one
is 2, so the unadjusted stripped-length reading fails as well.  The source
uses the original length (minus 2 when the text starts with '0'), not the
stripped length. -/
theorem claim5_counterexample :
    (normalizeInteger "0128".toList).magnitude = 2 ∧
      (removeLeadingZeros "0128".toList).length = 3 ∧
      (normalizeInteger "0128".toList).magnitude ≠ claimFiveMagnitude "0128".toList ∧
      (normalizeInteger "00128".toList).magnitude = 3 ∧
      (removeLeadingZeros "00128".toList).length = 3 :=
  ⟨by decide, by decide, by decide, by decide, by decide⟩

/-- C6, counterexample: on the valid decimal literal "0." (mantissa with an
empty fraction) the float normalizer builds the coefficient "undefined."
(JavaScript renders the undefined first character of the empty significant
digit string), which does not match the claimed single-digit-point-digits
pattern; the full normalizer output is "undefined.e-1". -/
theorem claim6_counterexample :
    (normalizeFloat "0.".toList).coefficient = "undefined.".toList ∧
      coeffShape ((normalizeFloat "0.".toList).coefficient) = false ∧
      convertNumberToScientificNotation "0.".toList = "undefined.e-1".toList :=
  ⟨by decide, by decide, by decide⟩

/-- C7, counterexample: the normalizer itself produces the canonical form
"0.e-1" (from the literal "0"), yet re-running it on that string yields
"undefined.e-2", refuting idempotence on canonical zero forms. -/
theorem claim7_counterexample :
    convertNumberToScientificNotation "0".toList = "0.e-1".toList ∧
      convertNumberToScientificNotation "0.e-1".toList = "undefined.e-2".toList :=
  ⟨by decide, by decide⟩

/-- C8: whenever the normalized coefficient of a decimal literal carries more
than 100 digits (decimal point excluded), the predicate answers true at once,
for every decoded value — the rendering of the value is never consulted. -/
theorem claim8_guard (raw : List Char) (value : ℚ) (hb : isBaseTen raw = true)
    (hp : 100 < requestedPrecisionOf raw) :
    losesPrecision raw value = some true := by
  unfold losesPrecision baseTenLosesPrecision
  simp [hb, hp]

/-- C8, witness: a 101-digit literal of sevens is decimal, demands precision
101 and is flagged regardless of the decoded value. -/
theorem claim8_witness :
    isBaseTen (List.replicate 101 '7') = true ∧
      100 < requestedPrecisionOf (List.replicate 101 '7') ∧
      losesPrecision (List.replicate 101 '7') 0 = some true :=
  ⟨by decide, by decide, claim8_guard _ 0 (by decide) (by decide)⟩

/-- C10: a Literal node whose decoded value is falsy (zero or NaN) is never
reported, independently of the core predicate's verdict. -/
theorem claim10_falsyGuard (node : LiteralNode)
    (h : node.value = 0 ∨ node.valueIsNaN = true) : literalReports node = false := by
  unfold literalReports
  rcases h with h | h <;> simp [h]

/-- C10, witness: the node for "0e5" (decoded value 0) is not reported even
though the core predicate returns true on it. -/
theorem claim10_witness :
    literalReports ⟨"0e5".toList, 0, false⟩ = false ∧
      losesPrecision "0e5".toList 0 = some true :=
  ⟨claim10_falsyGuard ⟨"0e5".toList, 0, false⟩ (Or.inl rfl), by decide⟩

/-
Supporting lemmas about the string helpers, followed by the remaining
claim theorems.
-/

theorem splitOnChar_ne_nil (sep : Char) (l : List Char) : splitOnChar sep l ≠ [] := by
  cases l with
  | nil => simp [splitOnChar]
  | cons c cs =>
    rw [splitOnChar]
    split
    · simp
    · split <;> simp

theorem splitOnChar_cons_eq (sep : Char) (l : List Char) :
    splitOnChar sep (sep :: l) = [] :: splitOnChar sep l := by
  rw [splitOnChar, if_pos rfl]

theorem splitOnChar_cons_ne {c sep : Char} (l : List Char) (h : c ≠ sep) :
    splitOnChar sep (c :: l) =
      (c :: (splitOnChar sep l).headD []) :: (splitOnChar sep l).tail := by
  rw [splitOnChar, if_neg h]
  rcases hs : splitOnChar sep l with _ | ⟨h1, t1⟩
  · exact absurd hs (splitOnChar_ne_nil sep l)
  · simp

theorem not_mem_splitHead (sep : Char) (l : List Char) :
    sep ∉ (splitOnChar sep l).headD [] := by
  induction l with
  | nil => simp [splitOnChar]
  | cons c cs ih =>
    by_cases h : c = sep
    · subst h; rw [splitOnChar_cons_eq]; simp
    · rw [splitOnChar_cons_ne _ h]
      simp only [List.headD_cons, List.mem_cons, not_or]
      exact ⟨fun hh => h hh.symm, ih⟩

theorem splitOnChar_no_sep {sep : Char} {l : List Char} (h : sep ∉ l) :
    splitOnChar sep l = [l] := by
  induction l with
  | nil => rfl
  | cons c cs ih =>
    simp only [List.mem_cons, not_or] at h
    rw [splitOnChar_cons_ne _ (fun hh => h.1 hh.symm), ih h.2]
    simp

theorem splitOnChar_append_sep {sep : Char} {l : List Char} (t : List Char) (h : sep ∉ l) :
    splitOnChar sep (l ++ sep :: t) = l :: splitOnChar sep t := by
  induction l with
  | nil => simpa using splitOnChar_cons_eq sep t
  | cons c cs ih =>
    simp only [List.mem_cons, not_or] at h
    rw [List.cons_append, splitOnChar_cons_ne _ (fun hh => h.1 hh.symm), ih h.2]
    simp

theorem jsReplaceFirst_length_nil (l : List Char) (c : Char) :
    l.length ≤ (jsReplaceFirst l c []).length + 1 := by
  induction l with
  | nil => simp
  | cons x xs ih =>
    rw [jsReplaceFirst]
    split
    · simp
    · simpa using Nat.succ_le_succ ih

theorem jsReplaceFirst_of_not_mem {l : List Char} {c : Char} (r : List Char) (h : c ∉ l) :
    jsReplaceFirst l c r = l := by
  induction l with
  | nil => rfl
  | cons x xs ih =>
    simp only [List.mem_cons, not_or] at h
    rw [jsReplaceFirst, if_neg (fun hh => h.1 hh.symm)]
    · rw [ih h.2]

theorem mem_jsReplaceFirst_nil {l : List Char} {c x : Char}
    (h : x ∈ jsReplaceFirst l c []) : x ∈ l := by
  induction l with
  | nil => exact h
  | cons y ys ih =>
    rw [jsReplaceFirst] at h
    split at h
    · simp only [List.nil_append] at h
      exact List.mem_cons_of_mem _ h
    · rcases List.mem_cons.mp h with h | h
      · exact h ▸ List.mem_cons_self _ _
      · exact List.mem_cons_of_mem _ (ih h)


theorem mem_removeLeadingZeros {l : List Char} {x : Char}
    (h : x ∈ removeLeadingZeros l) : x ∈ l := by
  rw [removeLeadingZeros] at h
  split at h
  · exact h
  · exact (List.dropWhile_sublist _).mem h

theorem removeLeadingZeros_ne_nil {l : List Char} (h : l ≠ []) :
    removeLeadingZeros l ≠ [] := by
  rcases hd : l.dropWhile (· == '0') with _ | ⟨c, t⟩
  · rw [removeLeadingZeros, hd]; exact h
  · rw [removeLeadingZeros, hd]; simp

theorem removeLeadingZeros_cons_ne {c : Char} (l : List Char) (h : ¬c = '0') :
    removeLeadingZeros (c :: l) = c :: l := by
  rw [removeLeadingZeros, List.dropWhile_cons_of_neg (by simpa using h)]

theorem removeLeadingZeros_all_zero {l : List Char} (h : l.dropWhile (· == '0') = []) :
    removeLeadingZeros l = l := by
  rw [removeLeadingZeros, h]

theorem removeLeadingZeros_eq_dropWhile {l : List Char} (h : l.dropWhile (· == '0') ≠ []) :
    removeLeadingZeros l = l.dropWhile (· == '0') := by
  rcases hd : l.dropWhile (· == '0') with _ | ⟨c, t⟩
  · exact absurd hd h
  · rw [removeLeadingZeros, hd]

theorem head_removeLeadingZeros {l : List Char} {c : Char} {t : List Char}
    (h : l.dropWhile (· == '0') ≠ []) (he : removeLeadingZeros l = c :: t) : ¬c = '0' := by
  rw [removeLeadingZeros_eq_dropWhile h] at he
  have hh := List.head?_dropWhile_not (· == '0') l
  rw [he] at hh
  simpa using hh

theorem all_zero_of_dropWhile_nil {l : List Char} (h : l.dropWhile (· == '0') = []) :
    ∀ x ∈ l, x = '0' := by
  induction l with
  | nil => simp
  | cons y ys ih =>
    by_cases hy : y = '0'
    · subst hy
      rw [List.dropWhile_cons_of_pos (by simp)] at h
      intro x hx
      rcases hx with _ | hx
      · rfl
      · exact ih h _ (by assumption)
    · rw [List.dropWhile_cons_of_neg (by simpa using hy)] at h
      simp at h

theorem mem_removeTrailingZeros {l : List Char} {x : Char}
    (h : x ∈ removeTrailingZeros l) : x ∈ l := by
  rw [removeTrailingZeros] at h
  rw [List.mem_reverse] at h
  simpa using mem_removeLeadingZeros h

theorem removeTrailingZeros_ne_nil {l : List Char} (h : l ≠ []) :
    removeTrailingZeros l ≠ [] := by
  rw [removeTrailingZeros]
  intro hc
  rw [List.reverse_eq_nil_iff] at hc
  exact removeLeadingZeros_ne_nil (by simpa using h) hc

theorem removeLeadingZeros_sfx (l : List Char) : removeLeadingZeros l <:+ l := by
  rcases hd : l.dropWhile (· == '0') with _ | ⟨c, t⟩
  · rw [removeLeadingZeros_all_zero hd]
  · rw [removeLeadingZeros_eq_dropWhile (by simp [hd])]
    exact (List.dropWhile_suffix _)

theorem removeTrailingZeros_pfx (l : List Char) : removeTrailingZeros l <+: l := by
  rw [removeTrailingZeros]
  have := removeLeadingZeros_sfx l.reverse
  rw [← List.reverse_prefix] at this
  simpa using this

theorem head_removeTrailingZeros {l : List Char} {c : Char} {t : List Char}
    (h : removeTrailingZeros l = c :: t) : l.head? = some c := by
  have hp := removeTrailingZeros_pfx l
  rw [h] at hp
  obtain ⟨u, hu⟩ := hp
  rw [← hu]
  simp

/-- Significant-digit extraction for a nonempty all-digit string: the result
is nonempty, consists of digits of the input, and starts with a non-zero
digit unless the input is all zeros (in which case it is the input itself). -/
theorem significant_digits_shape {m : List Char} (hne : m ≠ []) :
    ∃ c t, removeTrailingZeros (removeLeadingZeros m) = c :: t ∧
      (c ∈ m ∧ ∀ x ∈ t, x ∈ m) ∧ (c = '0' → ∀ x ∈ m, x = '0') := by
  rcases hs : removeTrailingZeros (removeLeadingZeros m) with _ | ⟨c, t⟩
  · exact absurd hs (removeTrailingZeros_ne_nil (removeLeadingZeros_ne_nil hne))
  · refine ⟨c, t, rfl, ⟨?_, ?_⟩, ?_⟩
    · exact mem_removeLeadingZeros (mem_removeTrailingZeros (hs ▸ List.mem_cons_self c t))
    · intro x hx
      exact mem_removeLeadingZeros (mem_removeTrailingZeros (hs ▸ List.mem_cons_of_mem c hx))
    · intro hc
      rcases hd : m.dropWhile (· == '0') with _ | ⟨d, u⟩
      · exact all_zero_of_dropWhile_nil hd
      · exfalso
        have hrz : removeLeadingZeros m = d :: u := by
          rw [removeLeadingZeros_eq_dropWhile (by simp [hd]), hd]
        have hd0 : ¬d = '0' := head_removeLeadingZeros (by simp [hd]) hrz
        have := head_removeTrailingZeros (hrz ▸ hs)
        simp at this
        exact hd0 (this ▸ hc.symm ▸ rfl)

theorem jsStartsWith_one (a b : Char) (l : List Char) :
    jsStartsWith (a :: l) [b] = (b == a) := by
  rw [jsStartsWith]
  by_cases h : b = a
  · subst h
    rw [decide_eq_true]
    · simp
    · exact ⟨l, rfl⟩
  · have hnp : ¬([b] <+: a :: l) := by
      intro hp
      obtain ⟨u, hu⟩ := hp
      rw [List.cons_append] at hu
      exact h (by injection hu)
    rw [decide_eq_false hnp, beq_eq_false_iff_ne.mpr h]

theorem jsStartsWith_two (a b : Char) (l : List Char) :
    jsStartsWith ('0' :: b :: l) ['0', a] = (a == b) := by
  rw [jsStartsWith]
  by_cases h : a = b
  · subst h
    rw [decide_eq_true]
    · simp
    · exact ⟨l, rfl⟩
  · have hnp : ¬(['0', a] <+: '0' :: b :: l) := by
      intro hp
      obtain ⟨u, hu⟩ := hp
      rw [List.cons_append, List.cons_append] at hu
      injection hu with _ hu2
      exact h (by injection hu2)
    rw [decide_eq_false hnp, beq_eq_false_iff_ne.mpr h]

/-- C5, amended: on a nonempty all-digit mantissa that is not "0" and has at
most one leading zero, the magnitude is the stripped length minus one (with
no further adjustment), and the coefficient is the significant digits with a
decimal point inserted after the first digit; in general the source computes
the magnitude from the original length (minus 2 exactly when the text starts
with '0'). -/
theorem claim5_amended (m : List Char) (hne : m ≠ []) (hd : m.all isDigitB = true)
    (h1 : m.take 2 ≠ ['0', '0']) (h2 : m ≠ ['0']) :
    (normalizeInteger m).magnitude = ((removeLeadingZeros m).length : Int) - 1 ∧
      (normalizeInteger m).coefficient =
        addDecimalPointToNumber (removeTrailingZeros (removeLeadingZeros m)) := by
  refine ⟨?_, rfl⟩
  rcases m with _ | ⟨c, cs⟩
  · exact absurd rfl hne
  · by_cases hc : c = '0'
    · subst hc
      rcases cs with _ | ⟨c2, cs2⟩
      · exact absurd rfl h2
      · have hc2 : ¬c2 = '0' := by
          intro hh
          exact h1 (by rw [hh]; rfl)
        have hrlz : removeLeadingZeros ('0' :: c2 :: cs2) = c2 :: cs2 := by
          rw [removeLeadingZeros, List.dropWhile_cons_of_pos (by simp),
            List.dropWhile_cons_of_neg (by simpa using hc2)]
        rw [normalizeInteger, hrlz]
        have hsw : jsStartsWith ('0' :: c2 :: cs2) ['0'] = true := by
          rw [jsStartsWith, decide_eq_true]
          exact ⟨c2 :: cs2, rfl⟩
        simp only [hsw, if_true]
        simp
        omega
    · have hrlz := removeLeadingZeros_cons_ne cs hc
      rw [normalizeInteger, hrlz]
      have hsw : jsStartsWith (c :: cs) ['0'] = false := by
        rw [jsStartsWith_one, beq_eq_false_iff_ne]
        exact fun hh => hc hh.symm
      simp only [hsw, if_false]
      simp

/-- C5, amended, witness at the mantissa "0128". -/
theorem claim5_witness :
    (normalizeInteger "0128".toList).magnitude =
        ((removeLeadingZeros "0128".toList).length : Int) - 1 ∧
      (normalizeInteger "0128".toList).coefficient =
        addDecimalPointToNumber (removeTrailingZeros (removeLeadingZeros "0128".toList)) :=
  claim5_amended _ (by decide) (by decide) (by decide) (by decide)

theorem jsReplaceFirst_all_digits {l : List Char}
    (hall : l.all (fun c => isDigitB c || c == '.') = true) (hcnt : l.count '.' ≤ 1) :
    (jsReplaceFirst l '.' []).all isDigitB = true := by
  induction l with
  | nil => rfl
  | cons x xs ih =>
    simp only [List.all_cons, Bool.and_eq_true] at hall
    rw [jsReplaceFirst]
    split
    · next hx =>
      rw [List.nil_append, List.all_eq_true]
      intro y hy
      have hycnt : xs.count '.' = 0 := by
        rw [List.count_cons] at hcnt
        subst hx
        simp at hcnt
        omega
      have hynd : y ≠ '.' := by
        intro hc
        subst hc
        rw [List.count_eq_zero] at hycnt
        exact hycnt hy
      have hy2 := (List.all_eq_true.mp hall.2) y hy
      rcases Bool.or_eq_true_iff.mp hy2 with h | h
      · exact h
      · exact absurd (by simpa using h) hynd
    · next hx =>
      rw [List.all_cons, Bool.and_eq_true]
      refine ⟨?_, ?_⟩
      · rcases Bool.or_eq_true_iff.mp hall.1 with h | h
        · exact h
        · exact absurd (by simpa using h) hx
      · refine ih hall.2 ?_
        rw [List.count_cons] at hcnt
        omega

theorem ne_nil_of_any {l : List Char} {p : Char → Bool} (h : l.any p = true) : l ≠ [] := by
  intro hc
  subst hc
  simp at h

theorem coeffShape_cons (c : Char) (R : List Char) :
    coeffShape (c :: '.' :: R) = (isDigitB c && R.all isDigitB) := rfl

theorem addDP_cons (c : Char) (t : List Char) :
    addDecimalPointToNumber (c :: t) = c :: '.' :: t := rfl

theorem count_dot_takeWhile (m : List Char) : (m.takeWhile (· == '0')).count '.' = 0 := by
  rw [List.count_eq_zero]
  intro hmem
  have hmt := List.mem_takeWhile_imp hmem
  simp at hmt

theorem normalizeFloat_dot {m frac : List Char} (h : removeLeadingZeros m = '.' :: frac) :
    normalizeFloat m =
      ⟨((removeLeadingZeros frac).length : Int) - frac.length - 1,
        addDecimalPointToNumber (removeLeadingZeros frac)⟩ := by
  simp [normalizeFloat, h, jsStartsWith_one]

theorem normalizeFloat_nodot {m : List Char} {c : Char} {t : List Char}
    (h : removeLeadingZeros m = c :: t) (hc : ¬c = '.') :
    normalizeFloat m =
      ⟨jsIndexOf (c :: t) '.' - 1,
        addDecimalPointToNumber (jsReplaceFirst (c :: t) '.' [])⟩ := by
  have hb : ('.' == c) = false := beq_eq_false_iff_ne.mpr fun hh => hc hh.symm
  simp [normalizeFloat, h, jsStartsWith_one, hb]

/-- C6, amended: on any decimal mantissa of digits with at most one decimal
point, at least one digit, and not of the shape zeros-then-bare-point (such
as "0."), the NormalizedNumber built by the dispatched normalizer has a
coefficient of the shape digit, point, digits, whose leading digit is zero
only when every digit of the mantissa is zero. -/
theorem claim6_amended (m : List Char)
    (hall : m.all (fun c => isDigitB c || c == '.') = true)
    (hcnt : m.count '.' ≤ 1)
    (hdig : m.any isDigitB = true)
    (hbad : m.dropWhile (· == '0') ≠ ['.']) :
    coeffShape ((if m.contains '.' then normalizeFloat m
        else normalizeInteger m).coefficient) = true ∧
      (((if m.contains '.' then normalizeFloat m
          else normalizeInteger m).coefficient).head? = some '0' →
        m.all (fun c => c == '0' || c == '.') = true) := by
  have hne : m ≠ [] := ne_nil_of_any hdig
  by_cases hdot : m.contains '.' = true
  · simp only [hdot, if_true]
    have hdm : '.' ∈ m := List.elem_iff.mp hdot
    have hnz : m.dropWhile (· == '0') ≠ [] := by
      intro hc
      have hz := all_zero_of_dropWhile_nil hc '.' hdm
      simp at hz
    rcases hh : removeLeadingZeros m with _ | ⟨c, t⟩
    · exact absurd hh (removeLeadingZeros_ne_nil hne)
    have hdw : m.dropWhile (· == '0') = c :: t := by
      rw [← removeLeadingZeros_eq_dropWhile hnz, hh]
    have hmsplit : m.takeWhile (· == '0') ++ c :: t = m := by
      rw [← hdw]
      exact List.takeWhile_append_dropWhile _ _
    have hmem : ∀ x ∈ c :: t, x ∈ m := fun x hx => by
      rw [← hmsplit]
      exact List.mem_append_right _ hx
    have hcnt2 : (c :: t).count '.' ≤ 1 := by
      rw [← hmsplit, List.count_append, count_dot_takeWhile] at hcnt
      omega
    by_cases hcdot : c = '.'
    · subst hcdot
      rw [normalizeFloat_dot hh]
      have hfne : t ≠ [] := by
        intro hc
        rw [hc] at hdw
        exact hbad hdw
      have hnd : '.' ∉ t := by
        rw [List.count_cons] at hcnt2
        simp at hcnt2
        exact List.count_eq_zero.mp (by omega)
      have hfd : ∀ x ∈ t, isDigitB x = true := by
        intro x hx
        have hx2 := List.all_eq_true.mp hall x (hmem x (List.mem_cons_of_mem _ hx))
        rcases Bool.or_eq_true_iff.mp hx2 with h | h
        · exact h
        · have hxd : x = '.' := by simpa using h
          exact absurd (hxd ▸ hx) hnd
      rcases hdf : t.dropWhile (· == '0') with _ | ⟨d, u⟩
      · have hfz := all_zero_of_dropWhile_nil hdf
        have hrf : removeLeadingZeros t = t := removeLeadingZeros_all_zero hdf
        rcases hfe : t with _ | ⟨f, fr⟩
        · exact absurd hfe hfne
        · rw [hfe] at hrf
          rw [hrf, addDP_cons]
          constructor
          · rw [coeffShape_cons, Bool.and_eq_true, List.all_eq_true]
            refine ⟨hfd f (by rw [hfe]; exact List.mem_cons_self _ _), ?_⟩
            intro x hx
            exact hfd x (by rw [hfe]; exact List.mem_cons_of_mem _ hx)
          · intro _
            rw [List.all_eq_true]
            intro x hx
            rw [← hmsplit] at hx
            rcases List.mem_append.mp hx with hx | hx
            · have hx0 := List.mem_takeWhile_imp hx
              simp [hx0]
            · rcases List.mem_cons.mp hx with hx | hx
              · simp [hx]
              · have hx0 := hfz x hx
                simp [hx0]
      · have hrf : removeLeadingZeros t = d :: u := by
          rw [removeLeadingZeros_eq_dropWhile (by simp [hdf]), hdf]
        have hd0 : ¬d = '0' := head_removeLeadingZeros (by simp [hdf]) hrf
        rw [hrf, addDP_cons]
        constructor
        · rw [coeffShape_cons, Bool.and_eq_true, List.all_eq_true]
          refine ⟨hfd d (mem_removeLeadingZeros (hrf ▸ List.mem_cons_self _ _)), ?_⟩
          intro x hx
          exact hfd x (mem_removeLeadingZeros (hrf ▸ List.mem_cons_of_mem _ hx))
        · intro hhead
          simp at hhead
          exact absurd hhead hd0
    · rw [normalizeFloat_nodot hh hcdot]
      have hc0 : ¬c = '0' := head_removeLeadingZeros hnz hh
      have hall2 : (c :: t).all (fun x => isDigitB x || x == '.') = true := by
        rw [List.all_eq_true]
        exact fun x hx => List.all_eq_true.mp hall x (hmem x hx)
      have hdigits := jsReplaceFirst_all_digits hall2 hcnt2
      have hrp : jsReplaceFirst (c :: t) '.' [] = c :: jsReplaceFirst t '.' [] := by
        rw [jsReplaceFirst, if_neg hcdot]
      rw [hrp] at hdigits ⊢
      rw [addDP_cons]
      simp only [List.all_cons, Bool.and_eq_true] at hdigits
      constructor
      · rw [coeffShape_cons, Bool.and_eq_true]
        exact hdigits
      · intro hhead
        simp at hhead
        exact absurd hhead hc0
  · rw [Bool.not_eq_true] at hdot
    rw [hdot]
    simp only [Bool.false_eq_true, if_false]
    have hdnm : '.' ∉ m := by
      intro hc
      have h2 : m.contains '.' = true := List.elem_iff.mpr hc
      rw [h2] at hdot
      simp at hdot
    obtain ⟨c, t, hct, ⟨hcm, htm⟩, hzero⟩ := significant_digits_shape hne
    have hdigit : ∀ x ∈ m, isDigitB x = true := by
      intro x hx
      rcases Bool.or_eq_true_iff.mp (List.all_eq_true.mp hall x hx) with h | h
      · exact h
      · have hxd : x = '.' := by simpa using h
        exact absurd (hxd ▸ hx) hdnm
    rw [normalizeInteger]
    simp only [hct, addDP_cons]
    constructor
    · rw [coeffShape_cons, Bool.and_eq_true, List.all_eq_true]
      exact ⟨hdigit c hcm, fun x hx => hdigit x (htm x hx)⟩
    · intro hhead
      simp at hhead
      rw [List.all_eq_true]
      intro x hx
      simp [hzero hhead x hx]

/-- C6, amended, witness at the mantissa "123.45". -/
theorem claim6_witness :
    coeffShape ((if "123.45".toList.contains '.' then normalizeFloat "123.45".toList
        else normalizeInteger "123.45".toList).coefficient) = true ∧
      (((if "123.45".toList.contains '.' then normalizeFloat "123.45".toList
          else normalizeInteger "123.45".toList).coefficient).head? = some '0' →
        "123.45".toList.all (fun c => c == '0' || c == '.') = true) :=
  claim6_amended _ (by decide) (by decide) (by decide) (by decide)

theorem toRadixAux_chars {base : ℕ} (hb : 0 < base) :
    ∀ fuel n : ℕ, ∀ c ∈ toRadixAux base fuel n, ∃ d, d < base ∧ c = hexDigitChar d := by
  intro fuel
  induction fuel with
  | zero => intro n c hc; simp [toRadixAux] at hc
  | succ f ih =>
    intro n c hc
    rw [toRadixAux] at hc
    split at hc
    · simp at hc
    · rcases List.mem_append.mp hc with h | h
      · exact ih _ c h
      · have hcd : c = hexDigitChar (n % base) := by simpa using h
        exact ⟨n % base, Nat.mod_lt _ hb, hcd⟩

theorem natToRadix_chars {base : ℕ} (hb : 0 < base) (n : ℕ) :
    ∀ c ∈ natToRadix base n, ∃ d, d < base ∧ c = hexDigitChar d := by
  intro c hc
  rw [natToRadix] at hc
  split at hc
  · have hc0 : c = '0' := by simpa using hc
    exact ⟨0, hb, by simpa [hexDigitChar] using hc0⟩
  · exact toRadixAux_chars hb _ n c hc

theorem hexDigitChar_lt10_digit : ∀ d, d < 10 → isDigitB (hexDigitChar d) = true := by decide

theorem natToRadix10_digits (n : ℕ) : ∀ c ∈ natToRadix 10 n, isDigitB c = true := by
  intro c hc
  obtain ⟨d, hd, rfl⟩ := natToRadix_chars (by norm_num) n c hc
  exact hexDigitChar_lt10_digit d hd

theorem isDigitB_ne_of_not {c d : Char} (h : isDigitB c = true) (hd : isDigitB d = false) :
    c ≠ d := by
  intro hh
  rw [hh, hd] at h
  exact Bool.false_ne_true h

theorem digitsVal_append_digit (l : List Char) (c : Char) :
    digitsVal (l ++ [c]) = digitsVal l * 10 + (c.toNat - 48) := by
  rw [digitsVal, List.foldl_append]
  rfl

theorem hexDigitChar_val : ∀ d, d < 10 → (hexDigitChar d).toNat - 48 = d := by decide

theorem digitsVal_toRadixAux :
    ∀ fuel n : ℕ, n ≤ fuel → digitsVal (toRadixAux 10 fuel n) = n := by
  intro fuel
  induction fuel with
  | zero =>
    intro n hn
    interval_cases n
    rfl
  | succ f ih =>
    intro n hn
    rw [toRadixAux]
    split
    · next h0 => rw [h0]; rfl
    · next h0 =>
      rw [digitsVal_append_digit, ih (n / 10) ?_, hexDigitChar_val _ (Nat.mod_lt _ (by norm_num))]
      · omega
      · have hlt : n / 10 < n := Nat.div_lt_self (Nat.pos_of_ne_zero h0) (by norm_num)
        omega

theorem digitsVal_natToRadix (n : ℕ) : digitsVal (natToRadix 10 n) = n := by
  rw [natToRadix]
  split
  · next h0 => rw [h0]; rfl
  · exact digitsVal_toRadixAux _ n (Nat.le_succ n)

theorem jsParseInt_eq_digitsVal {l : List Char} (h : l.all isDigitB = true) :
    jsParseInt l = (digitsVal l : Int) := by
  have ht : l.takeWhile isDigitB = l :=
    List.takeWhile_eq_self_iff.mpr (List.all_eq_true.mp h)
  rcases l with _ | ⟨a, as⟩
  · rfl
  · have ha : isDigitB a = true := List.all_eq_true.mp h a (List.mem_cons_self _ _)
    rw [jsParseInt, if_neg (isDigitB_ne_of_not ha (by decide)),
      if_neg (isDigitB_ne_of_not ha (by decide)), ht]

theorem jsParseInt_jsIntToString (m : Int) : jsParseInt (jsIntToString m) = m := by
  rw [jsIntToString]
  split
  · next hm =>
    have hall : (natToRadix 10 (-m).toNat).all isDigitB = true :=
      List.all_eq_true.mpr (natToRadix10_digits _)
    have ht : (natToRadix 10 (-m).toNat).takeWhile isDigitB = natToRadix 10 (-m).toNat :=
      List.takeWhile_eq_self_iff.mpr (List.all_eq_true.mp hall)
    rw [jsParseInt, if_pos rfl, ht, digitsVal_natToRadix]
    omega
  · next hm =>
    rw [jsParseInt_eq_digitsVal (List.all_eq_true.mpr (natToRadix10_digits _)),
      digitsVal_natToRadix]
    omega

theorem jsIntToString_chars (m : Int) :
    ∀ c ∈ jsIntToString m, c = '-' ∨ isDigitB c = true := by
  rw [jsIntToString]
  split
  · intro c hc
    rcases List.mem_cons.mp hc with h | h
    · exact Or.inl h
    · exact Or.inr (natToRadix10_digits _ c h)
  · intro c hc
    exact Or.inr (natToRadix10_digits _ c hc)

theorem e_not_mem_jsIntToString (m : Int) : 'e' ∉ jsIntToString m := by
  intro hc
  rcases jsIntToString_chars m 'e' hc with h | h
  · simp at h
  · simp [isDigitB] at h

theorem E_not_mem_jsIntToString (m : Int) : 'E' ∉ jsIntToString m := by
  intro hc
  rcases jsIntToString_chars m 'E' hc with h | h
  · simp at h
  · simp [isDigitB] at h

/-- Unfolded form of the normalizer pipeline (definitional). -/
theorem convert_eq (s : List Char) :
    convertNumberToScientificNotation s =
      (if s.contains '.' then
          normalizeFloat ((splitOnChar 'e' (jsReplaceFirst s 'E' ['e'])).headD [])
        else
          normalizeInteger ((splitOnChar 'e' (jsReplaceFirst s 'E' ['e'])).headD [])).coefficient ++
        'e' ::
          jsIntToString
            (if 1 < (splitOnChar 'e' (jsReplaceFirst s 'E' ['e'])).length then
                jsParseInt ((splitOnChar 'e' (jsReplaceFirst s 'E' ['e'])).getD 1 []) +
                  (if s.contains '.' then
                      normalizeFloat ((splitOnChar 'e' (jsReplaceFirst s 'E' ['e'])).headD [])
                    else
                      normalizeInteger
                        ((splitOnChar 'e' (jsReplaceFirst s 'E' ['e'])).headD [])).magnitude
              else
                (if s.contains '.' then
                    normalizeFloat ((splitOnChar 'e' (jsReplaceFirst s 'E' ['e'])).headD [])
                  else
                    normalizeInteger
                      ((splitOnChar 'e' (jsReplaceFirst s 'E' ['e'])).headD [])).magnitude) :=
  rfl

/-- C7, amended: normalizing a string already in the canonical form the
normalizer produces (one digit, a point, digit tail, then `e` and a rendered
integer magnitude) returns the identical string, provided the leading digit
is non-zero; canonical zero forms such as "0.e-1" are the exception (see the
counterexample). -/
theorem claim7_amended (c : Char) (ds : List Char) (mg : Int)
    (hc : isDigitB c = true ∧ c ≠ '0') (hds : ds.all isDigitB = true) :
    convertNumberToScientificNotation (c :: '.' :: (ds ++ 'e' :: jsIntToString mg)) =
      c :: '.' :: (ds ++ 'e' :: jsIntToString mg) := by
  have hcE : c ≠ 'E' := isDigitB_ne_of_not hc.1 (by decide)
  have hce : c ≠ 'e' := isDigitB_ne_of_not hc.1 (by decide)
  have hcd : c ≠ '.' := isDigitB_ne_of_not hc.1 (by decide)
  have hnE : 'E' ∉ c :: '.' :: (ds ++ 'e' :: jsIntToString mg) := by
    intro hmem
    rcases List.mem_cons.mp hmem with h | h
    · exact hcE h.symm
    rcases List.mem_cons.mp h with h | h
    · simp at h
    rcases List.mem_append.mp h with h | h
    · exact isDigitB_ne_of_not (List.all_eq_true.mp hds _ h) (by decide) rfl
    rcases List.mem_cons.mp h with h | h
    · simp at h
    · exact E_not_mem_jsIntToString mg h
  have h1 : jsReplaceFirst (c :: '.' :: (ds ++ 'e' :: jsIntToString mg)) 'E' ['e'] =
      c :: '.' :: (ds ++ 'e' :: jsIntToString mg) := jsReplaceFirst_of_not_mem _ hnE
  have hnoe : 'e' ∉ c :: '.' :: ds := by
    intro hmem
    rcases List.mem_cons.mp hmem with h | h
    · exact hce h.symm
    rcases List.mem_cons.mp h with h | h
    · simp at h
    · exact isDigitB_ne_of_not (List.all_eq_true.mp hds _ h) (by decide) rfl
  have hsplit : splitOnChar 'e' (c :: '.' :: (ds ++ 'e' :: jsIntToString mg)) =
      [c :: '.' :: ds, jsIntToString mg] := by
    have hre : c :: '.' :: (ds ++ 'e' :: jsIntToString mg) =
        (c :: '.' :: ds) ++ 'e' :: jsIntToString mg := by simp
    rw [hre, splitOnChar_append_sep _ hnoe, splitOnChar_no_sep (e_not_mem_jsIntToString mg)]
  have hcont : (c :: '.' :: (ds ++ 'e' :: jsIntToString mg)).contains '.' = true :=
    List.elem_iff.mpr (List.mem_cons_of_mem _ (List.mem_cons_self _ _))
  have hrlz : removeLeadingZeros (c :: '.' :: ds) = c :: '.' :: ds :=
    removeLeadingZeros_cons_ne _ hc.2
  have hidx : jsIndexOf (c :: '.' :: ds) '.' = 1 := by
    have hb : (c == '.') = false := beq_eq_false_iff_ne.mpr hcd
    rw [jsIndexOf]
    simp [List.findIdx?_cons, hb]
  have hrp : jsReplaceFirst (c :: '.' :: ds) '.' [] = c :: ds := by
    rw [jsReplaceFirst, if_neg hcd, jsReplaceFirst, if_pos rfl]
    simp
  have hnf : normalizeFloat (c :: '.' :: ds) = ⟨0, c :: '.' :: ds⟩ := by
    rw [normalizeFloat_nodot hrlz hcd, hidx, hrp, addDP_cons]
    norm_num
  rw [convert_eq, h1, hsplit, hcont]
  simp only [if_true, List.headD_cons, hnf]
  simp [jsParseInt_jsIntToString]

/-- C7, amended, witness at the canonical form "1.2345e2". -/
theorem claim7_witness :
    convertNumberToScientificNotation ('1' :: '.' :: ("2345".toList ++ 'e' :: jsIntToString 2)) =
      '1' :: '.' :: ("2345".toList ++ 'e' :: jsIntToString 2) :=
  claim7_amended '1' "2345".toList 2 ⟨by decide, by decide⟩ (by decide)

theorem normalizeInteger_coeff (l : List Char) :
    ∃ t, (normalizeInteger l).coefficient = addDecimalPointToNumber t ∧ ∀ c ∈ t, c ∈ l :=
  ⟨removeTrailingZeros (removeLeadingZeros l), rfl, fun _c hc =>
    mem_removeLeadingZeros (mem_removeTrailingZeros hc)⟩

theorem normalizeFloat_coeff (l : List Char) :
    ∃ t, (normalizeFloat l).coefficient = addDecimalPointToNumber t ∧ ∀ c ∈ t, c ∈ l := by
  rcases hh : removeLeadingZeros l with _ | ⟨c, t0⟩
  · have hl : l = [] := by
      by_contra hne
      exact removeLeadingZeros_ne_nil hne hh
    subst hl
    exact ⟨[], rfl, by simp⟩
  · by_cases hc : c = '.'
    · subst hc
      rw [normalizeFloat_dot hh]
      refine ⟨removeLeadingZeros t0, rfl, fun x hx => ?_⟩
      have hx0 : x ∈ '.' :: t0 := List.mem_cons_of_mem _ (mem_removeLeadingZeros hx)
      exact mem_removeLeadingZeros (hh ▸ hx0)
    · rw [normalizeFloat_nodot hh hc]
      refine ⟨jsReplaceFirst (c :: t0) '.' [], rfl, fun x hx => ?_⟩
      exact mem_removeLeadingZeros (hh ▸ mem_jsReplaceFirst_nil hx)

theorem precision_ge_one {t rest : List Char} (h : ∀ c ∈ t, c ≠ 'e') :
    1 ≤ (jsReplaceFirst
        ((splitOnChar 'e' (addDecimalPointToNumber t ++ 'e' :: rest)).headD []) '.' []).length := by
  rcases t with _ | ⟨c, cs⟩
  · have hu : (splitOnChar 'e' (addDecimalPointToNumber [] ++ 'e' :: rest)).headD [] =
        ['u', 'n', 'd'] := rfl
    rw [hu]
    decide
  · have hce : c ≠ 'e' := h c (List.mem_cons_self _ _)
    have hs1 : addDecimalPointToNumber (c :: cs) ++ 'e' :: rest =
        c :: '.' :: (cs ++ 'e' :: rest) := by
      rw [addDP_cons]
      simp
    rw [hs1, splitOnChar_cons_ne _ hce, splitOnChar_cons_ne _ (by decide)]
    simp only [List.headD_cons]
    rw [jsReplaceFirst]
    split
    · simp
    · rw [jsReplaceFirst, if_pos rfl]
      simp

theorem requestedPrecision_pos (raw : List Char) : 1 ≤ requestedPrecisionOf raw := by
  rw [requestedPrecisionOf, convert_eq]
  have hnoe : 'e' ∉ (splitOnChar 'e' (jsReplaceFirst (getRaw raw) 'E' ['e'])).headD [] :=
    not_mem_splitHead _ _
  by_cases hdot : (getRaw raw).contains '.' = true
  · simp only [hdot, if_true]
    obtain ⟨t, hteq, htsub⟩ :=
      normalizeFloat_coeff ((splitOnChar 'e' (jsReplaceFirst (getRaw raw) 'E' ['e'])).headD [])
    rw [hteq]
    exact precision_ge_one fun c hc he => hnoe (he ▸ htsub c hc)
  · rw [Bool.not_eq_true] at hdot
    simp only [hdot, Bool.false_eq_true, if_false]
    obtain ⟨t, hteq, htsub⟩ :=
      normalizeInteger_coeff ((splitOnChar 'e' (jsReplaceFirst (getRaw raw) 'E' ['e'])).headD [])
    rw [hteq]
    exact precision_ge_one fun c hc he => hnoe (he ▸ htsub c hc)

/-- C9: the predicate is total — it never raises (no `none` outcome, in
particular the rendering step is reached only with a precision between 1 and
100) — and the four zero-valued literals evaluate without error, the
stripping steps included. -/
theorem claim9_total :
    (∀ (raw : List Char) (value : ℚ), losesPrecision raw value ≠ none) ∧
      losesPrecision "0".toList 0 = some false ∧
      losesPrecision "0.0".toList 0 = some false ∧
      losesPrecision "0e0".toList 0 = some false ∧
      losesPrecision "0x0".toList 0 = some false := by
  refine ⟨?_, by decide, by decide, by decide, by decide⟩
  intro raw value
  rw [losesPrecision]
  split
  · by_cases h : 100 < requestedPrecisionOf raw
    · simp [baseTenLosesPrecision, h]
    · have hp := requestedPrecision_pos raw
      have hp0 : ¬(requestedPrecisionOf raw = 0) := by omega
      have h1 : ¬(requestedPrecisionOf raw < 1 ∨ 100 < requestedPrecisionOf raw) := by omega
      simp [baseTenLosesPrecision, h, toPrecisionChecked, h1, hp0]
  · simp

theorem suffix_cons2 {p2 : Char} {d r : List Char} (hne : ∀ c ∈ r, c ≠ p2) :
    r <:+ ('0' :: p2 :: d) ↔ r <:+ d := by
  constructor
  · rintro ⟨t, ht⟩
    rcases t with _ | ⟨x, t1⟩
    · rw [List.nil_append] at ht
      exact absurd rfl (hne p2 (ht ▸ List.mem_cons_of_mem _ (List.mem_cons_self _ _)))
    · rcases t1 with _ | ⟨y, t2⟩
      · rw [List.cons_append, List.nil_append] at ht
        injection ht with h1 h2
        exact absurd rfl (hne p2 (h2 ▸ List.mem_cons_self _ _))
      · rw [List.cons_append, List.cons_append] at ht
        injection ht with h1 hrest
        injection hrest with h2 hrest2
        exact ⟨t2, hrest2⟩
  · intro h
    exact h.trans ⟨['0', p2], rfl⟩

theorem octChar_cases {c : Char} (h : isOctDigitB c = true) :
    c = '0' ∨ c = '1' ∨ c = '2' ∨ c = '3' ∨ c = '4' ∨ c = '5' ∨ c = '6' ∨ c = '7' := by
  simp only [isOctDigitB, Bool.and_eq_true, decide_eq_true_eq] at h
  obtain ⟨h1, h2⟩ := h
  rw [← Char.ofNat_toNat c]
  obtain ⟨n, hn⟩ : ∃ n, c.toNat = n := ⟨_, rfl⟩
  rw [hn] at h1 h2 ⊢
  interval_cases n <;> decide

theorem octChar_facts {c : Char} (h : isOctDigitB c = true) :
    (c != '_') = true ∧ Char.toUpper c = c ∧ ('B' == c) = false ∧ ('X' == c) = false ∧
      (c == 'b') = false ∧ (c == 'B') = false ∧ (c == 'o') = false ∧ (c == 'O') = false ∧
      (c == 'x') = false ∧ (c == 'X') = false := by
  rcases octChar_cases h with rfl | rfl | rfl | rfl | rfl | rfl | rfl | rfl <;> decide

theorem mapId_of_mem {l : List Char} {f : Char → Char} (h : ∀ c ∈ l, f c = c) :
    l.map f = l := by
  induction l with
  | nil => rfl
  | cons x xs ih =>
    rw [List.map_cons, h x (List.mem_cons_self _ _),
      ih fun c hc => h c (List.mem_cons_of_mem _ hc)]

theorem hexDigitChar_lt16_upper : ∀ d, d < 16 → Char.toUpper (hexDigitChar d) = hexDigitChar d := by
  decide

theorem hexDigitChar_lt2_ne : ∀ d, d < 2 → hexDigitChar d ≠ 'B' := by decide

theorem hexDigitChar_lt16_ne : ∀ d, d < 16 → hexDigitChar d ≠ 'X' := by decide

theorem hexDigitChar_lt8_ne : ∀ d, d < 8 → hexDigitChar d ≠ 'O' := by decide

theorem jsToUpper_natToRadix {base : ℕ} (hb0 : 0 < base) (hb16 : base ≤ 16) (n : ℕ) :
    jsToUpper (natToRadix base n) = natToRadix base n := by
  rw [jsToUpper]
  refine mapId_of_mem ?_
  intro c hc
  obtain ⟨d, hd, rfl⟩ := natToRadix_chars hb0 n c hc
  exact hexDigitChar_lt16_upper d (lt_of_lt_of_le hd hb16)

theorem ratNatVal (v : ℕ) : ((v : ℚ)).num.toNat = v := by
  simp [Rat.num_natCast]

/-- Unfolded form of the non-decimal comparator (definitional). -/
theorem notBaseTen_eq (raw : List Char) (value : ℚ) :
    notBaseTenLosesPrecision raw value =
      !jsEndsWith (jsToUpper (getRaw raw))
        (jsToUpper (jsToStringRadix value
          (if jsStartsWith (jsToUpper (getRaw raw)) ['0', 'B'] then 2
            else if jsStartsWith (jsToUpper (getRaw raw)) ['0', 'X'] then 16 else 8))) :=
  rfl

theorem endsWith_rendered {P : Char} {base : ℕ} (D : List Char) (v : ℕ)
    (hb0 : 0 < base) (hb16 : base ≤ 16)
    (hPr : ∀ d, d < base → hexDigitChar d ≠ P) :
    jsEndsWith ('0' :: P :: D) (jsToUpper (natToRadix base v)) =
      jsEndsWith D (natToRadix base v) := by
  rw [jsToUpper_natToRadix hb0 hb16, jsEndsWith, jsEndsWith, decide_eq_decide]
  refine suffix_cons2 ?_
  intro c hc he
  obtain ⟨d, hd, rfl⟩ := natToRadix_chars hb0 _ c hc
  exact hPr d hd he

theorem notBaseTen_prefix_eval {raw : List Char} {P : Char} {D : List Char} (v : ℕ)
    {base : ℕ} (hraw : jsToUpper (getRaw raw) = '0' :: P :: D)
    (hbase : (if jsStartsWith ('0' :: P :: D) ['0', 'B'] then 2
        else if jsStartsWith ('0' :: P :: D) ['0', 'X'] then (16 : ℕ) else 8) = base)
    (hb0 : 0 < base) (hb16 : base ≤ 16)
    (hPr : ∀ d, d < base → hexDigitChar d ≠ P) :
    notBaseTenLosesPrecision raw ((v : ℕ) : ℚ) = !jsEndsWith D (natToRadix base v) := by
  rw [notBaseTen_eq, hraw, hbase, jsToStringRadix, ratNatVal,
    endsWith_rendered D v hb0 hb16 hPr]

/-- C4: on every binary, octal or hex literal (prefixed in either case, or
legacy prefixless octal) with an integral decoded value, the predicate
answers true exactly when the separator-stripped uppercased digit text does
not end with the value rendered as an unsigned integer string in the
literal's radix — base 8 for legacy octal such as "0777", with zero rendered
as the single digit "0". -/
theorem claim4_nonDecimal (raw : List Char) (v : ℕ) (h : NonDecimalLit raw = true) :
    losesPrecision raw ((v : ℕ) : ℚ) =
      some (!jsEndsWith (specRawDigits raw) (natToRadix (specRadixOf raw) v)) := by
  rcases raw with _ | ⟨c0, rest⟩
  · exact absurd h (by decide)
  rcases rest with _ | ⟨p, ds⟩
  · have hf : NonDecimalLit [c0] = false := rfl
    rw [hf] at h
    exact absurd h (by decide)
  have h' : (c0 == '0' &&
      (if p == 'b' || p == 'B' then
          ds.any isBinDigitB && ds.all fun c => isBinDigitB c || c == '_'
        else if p == 'o' || p == 'O' then
          ds.any isOctDigitB && ds.all fun c => isOctDigitB c || c == '_'
        else if p == 'x' || p == 'X' then
          ds.any isHexDigitB && ds.all fun c => isHexDigitB c || c == '_'
        else (p :: ds).all isOctDigitB)) = true := h
  rw [Bool.and_eq_true] at h'
  obtain ⟨h0, hX⟩ := h'
  have hc00 : c0 = '0' := by simpa using h0
  subst hc00
  by_cases hb : (p == 'b' || p == 'B') = true
  · rcases Bool.or_eq_true_iff.mp hb with hpb | hpb
    · have hp : p = 'b' := by simpa using hpb
      subst hp
      have hsw : jsStartsWith ('0' :: 'b' :: ds) ['0', 'b'] = true := by
        rw [jsStartsWith, decide_eq_true_eq]
        exact ⟨ds, rfl⟩
      have hbt : isBaseTen ('0' :: 'b' :: ds) = false := by
        rw [isBaseTen]
        simp only [List.all_cons, List.all_nil, hsw]
        simp
      rw [losesPrecision]
      simp only [hbt, Bool.false_eq_true, if_false]
      have hbase : (if jsStartsWith ('0' :: 'B' :: jsToUpper (getRaw ds)) ['0', 'B'] then 2
          else if jsStartsWith ('0' :: 'B' :: jsToUpper (getRaw ds)) ['0', 'X'] then (16 : ℕ)
          else 8) = 2 := by
        rw [jsStartsWith_two, jsStartsWith_two]
        simp
      rw [@notBaseTen_prefix_eval ('0' :: 'b' :: ds) 'B' (jsToUpper (getRaw ds)) v 2 rfl
        hbase (by norm_num) (by norm_num) hexDigitChar_lt2_ne]
      rfl
    · have hp : p = 'B' := by simpa using hpb
      subst hp
      have hsw : jsStartsWith ('0' :: 'B' :: ds) ['0', 'B'] = true := by
        rw [jsStartsWith, decide_eq_true_eq]
        exact ⟨ds, rfl⟩
      have hbt : isBaseTen ('0' :: 'B' :: ds) = false := by
        rw [isBaseTen]
        simp only [List.all_cons, List.all_nil, hsw]
        simp
      rw [losesPrecision]
      simp only [hbt, Bool.false_eq_true, if_false]
      have hbase : (if jsStartsWith ('0' :: 'B' :: jsToUpper (getRaw ds)) ['0', 'B'] then 2
          else if jsStartsWith ('0' :: 'B' :: jsToUpper (getRaw ds)) ['0', 'X'] then (16 : ℕ)
          else 8) = 2 := by
        rw [jsStartsWith_two, jsStartsWith_two]
        simp
      rw [@notBaseTen_prefix_eval ('0' :: 'B' :: ds) 'B' (jsToUpper (getRaw ds)) v 2 rfl
        hbase (by norm_num) (by norm_num) hexDigitChar_lt2_ne]
      rfl
  by_cases ho : (p == 'o' || p == 'O') = true
  · rcases Bool.or_eq_true_iff.mp ho with hpb | hpb
    · have hp : p = 'o' := by simpa using hpb
      subst hp
      have hsw : jsStartsWith ('0' :: 'o' :: ds) ['0', 'o'] = true := by
        rw [jsStartsWith, decide_eq_true_eq]
        exact ⟨ds, rfl⟩
      have hbt : isBaseTen ('0' :: 'o' :: ds) = false := by
        rw [isBaseTen]
        simp only [List.all_cons, List.all_nil, hsw]
        simp
      rw [losesPrecision]
      simp only [hbt, Bool.false_eq_true, if_false]
      have hbase : (if jsStartsWith ('0' :: 'O' :: jsToUpper (getRaw ds)) ['0', 'B'] then 2
          else if jsStartsWith ('0' :: 'O' :: jsToUpper (getRaw ds)) ['0', 'X'] then (16 : ℕ)
          else 8) = 8 := by
        rw [jsStartsWith_two, jsStartsWith_two]
        simp
      rw [@notBaseTen_prefix_eval ('0' :: 'o' :: ds) 'O' (jsToUpper (getRaw ds)) v 8 rfl
        hbase (by norm_num) (by norm_num) hexDigitChar_lt8_ne]
      rfl
    · have hp : p = 'O' := by simpa using hpb
      subst hp
      have hsw : jsStartsWith ('0' :: 'O' :: ds) ['0', 'O'] = true := by
        rw [jsStartsWith, decide_eq_true_eq]
        exact ⟨ds, rfl⟩
      have hbt : isBaseTen ('0' :: 'O' :: ds) = false := by
        rw [isBaseTen]
        simp only [List.all_cons, List.all_nil, hsw]
        simp
      rw [losesPrecision]
      simp only [hbt, Bool.false_eq_true, if_false]
      have hbase : (if jsStartsWith ('0' :: 'O' :: jsToUpper (getRaw ds)) ['0', 'B'] then 2
          else if jsStartsWith ('0' :: 'O' :: jsToUpper (getRaw ds)) ['0', 'X'] then (16 : ℕ)
          else 8) = 8 := by
        rw [jsStartsWith_two, jsStartsWith_two]
        simp
      rw [@notBaseTen_prefix_eval ('0' :: 'O' :: ds) 'O' (jsToUpper (getRaw ds)) v 8 rfl
        hbase (by norm_num) (by norm_num) hexDigitChar_lt8_ne]
      rfl
  by_cases hx : (p == 'x' || p == 'X') = true
  · rcases Bool.or_eq_true_iff.mp hx with hpb | hpb
    · have hp : p = 'x' := by simpa using hpb
      subst hp
      have hsw : jsStartsWith ('0' :: 'x' :: ds) ['0', 'x'] = true := by
        rw [jsStartsWith, decide_eq_true_eq]
        exact ⟨ds, rfl⟩
      have hbt : isBaseTen ('0' :: 'x' :: ds) = false := by
        rw [isBaseTen]
        simp only [List.all_cons, List.all_nil, hsw]
        simp
      rw [losesPrecision]
      simp only [hbt, Bool.false_eq_true, if_false]
      have hbase : (if jsStartsWith ('0' :: 'X' :: jsToUpper (getRaw ds)) ['0', 'B'] then 2
          else if jsStartsWith ('0' :: 'X' :: jsToUpper (getRaw ds)) ['0', 'X'] then (16 : ℕ)
          else 8) = 16 := by
        rw [jsStartsWith_two, jsStartsWith_two]
        simp
      rw [@notBaseTen_prefix_eval ('0' :: 'x' :: ds) 'X' (jsToUpper (getRaw ds)) v 16 rfl
        hbase (by norm_num) (by norm_num) hexDigitChar_lt16_ne]
      rfl
    · have hp : p = 'X' := by simpa using hpb
      subst hp
      have hsw : jsStartsWith ('0' :: 'X' :: ds) ['0', 'X'] = true := by
        rw [jsStartsWith, decide_eq_true_eq]
        exact ⟨ds, rfl⟩
      have hbt : isBaseTen ('0' :: 'X' :: ds) = false := by
        rw [isBaseTen]
        simp only [List.all_cons, List.all_nil, hsw]
        simp
      rw [losesPrecision]
      simp only [hbt, Bool.false_eq_true, if_false]
      have hbase : (if jsStartsWith ('0' :: 'X' :: jsToUpper (getRaw ds)) ['0', 'B'] then 2
          else if jsStartsWith ('0' :: 'X' :: jsToUpper (getRaw ds)) ['0', 'X'] then (16 : ℕ)
          else 8) = 16 := by
        rw [jsStartsWith_two, jsStartsWith_two]
        simp
      rw [@notBaseTen_prefix_eval ('0' :: 'X' :: ds) 'X' (jsToUpper (getRaw ds)) v 16 rfl
        hbase (by norm_num) (by norm_num) hexDigitChar_lt16_ne]
      rfl
  rw [if_neg hb, if_neg ho, if_neg hx] at hX
  have hpoct : isOctDigitB p = true := List.all_eq_true.mp hX p (List.mem_cons_self _ _)
  obtain ⟨hpu, hptu, hpB, hpX, hp1, hp2, hp3, hp4, hp5, hp6⟩ := octChar_facts hpoct
  have hleg : legacyOctalTest ('0' :: p :: ds) = true := hX
  have hbt : isBaseTen ('0' :: p :: ds) = false := by
    rw [isBaseTen, hleg]
    simp
  have hfil : List.filter (fun c => c != '_') ('0' :: p :: ds) = '0' :: p :: ds := by
    refine List.filter_eq_self.mpr ?_
    intro a ha
    rcases List.mem_cons.mp ha with rfl | ha
    · decide
    rcases List.mem_cons.mp ha with rfl | ha
    · exact hpu
    · exact (octChar_facts (List.all_eq_true.mp hX a (List.mem_cons_of_mem _ ha))).1
  have hupp : jsToUpper ('0' :: p :: ds) = '0' :: p :: ds := by
    refine mapId_of_mem ?_
    intro a ha
    rcases List.mem_cons.mp ha with rfl | ha
    · decide
    rcases List.mem_cons.mp ha with rfl | ha
    · exact hptu
    · exact (octChar_facts (List.all_eq_true.mp hX a (List.mem_cons_of_mem _ ha))).2.1
  have hraw : jsToUpper (getRaw ('0' :: p :: ds)) = '0' :: p :: ds := by
    rw [getRaw, hfil, hupp]
  have hbase : (if jsStartsWith ('0' :: p :: ds) ['0', 'B'] then 2
      else if jsStartsWith ('0' :: p :: ds) ['0', 'X'] then (16 : ℕ) else 8) = 8 := by
    rw [jsStartsWith_two, jsStartsWith_two, hpB, hpX]
    simp
  rw [losesPrecision]
  simp only [hbt, Bool.false_eq_true, if_false]
  rw [notBaseTen_eq, hraw, hbase, jsToStringRadix, ratNatVal,
    jsToUpper_natToRadix (by norm_num) (by norm_num)]
  have hspecD : specRawDigits ('0' :: p :: ds) = '0' :: p :: ds := by
    have hor : (p == 'b' || p == 'B' || p == 'o' || p == 'O' || p == 'x' || p == 'X') = false := by
      rw [hp1, hp2, hp3, hp4, hp5, hp6]
      rfl
    rw [specRawDigits, hor]
    simpa using hraw
  have hspecR : specRadixOf ('0' :: p :: ds) = 8 := by
    have hor1 : (p == 'b' || p == 'B') = false := by rw [hp1, hp2]; rfl
    have hor2 : (p == 'x' || p == 'X') = false := by rw [hp5, hp6]; rfl
    rw [specRadixOf, hor1, hor2]
    rfl
  rw [hspecD, hspecR]

/-- C4, witness at the legacy octal literal "0777" with decoded value 511. -/
theorem claim4_witness :
    NonDecimalLit "0777".toList = true ∧
      losesPrecision "0777".toList ((511 : ℕ) : ℚ) =
        some (!jsEndsWith (specRawDigits "0777".toList)
          (natToRadix (specRadixOf "0777".toList) 511)) :=
  ⟨by decide, claim4_nonDecimal _ 511 (by decide)⟩
